import Mathlib

/-!
# The kaleidoscope REPL driver (`src/main.cpp`)

`main.cpp` holds the read-eval-print loop of the front-end:

```
[[noreturn]] void driver_loop(Codegen& cdg) {
    std::string line;
    while (std::getline(std::cin, line)) {
        std::istringstream is{line};
        for (auto& expr : parser::parse(is)) { std::cout << cdg(*expr) << std::endl; }
        std::cout << "repl> ";
    }
    std::exit(0);
}

int main() {
    Codegen cdg{"my cool jit"};
    std::cout << "repl> ";
    driver_loop(cdg);
}
```

The modules `lexer`, `parser` and `codegen` it imports are not part of the
sources at hand.  The driver is therefore embedded over a parser and a Codegen
call operator taken as parameters; the parser of the specification is modelled
separately in the second half of the file.

Embedding conventions.
* `std::cin` is the list of lines that `std::getline` will deliver; a failed
  `getline` is the empty list.
* The `Codegen` object is a value of an arbitrary state type `σ`; the call
  `cdg(*expr)` takes the state it finds and gives the value it returns together
  with the state it leaves, or lets an exception escape.
* Everything the process does that can be observed is appended to a log of
  events, oldest first.
-/

namespace Kaleidoscope

/-! ## Data model -/

/-- How a call into the absent modules ends: it returns a result, or an
exception leaves it. -/
inductive Outcome (α : Type) where
  | returns (a : α)
  | throws
  deriving DecidableEq, Repr

/-- What `parser::parse(is)` hands to the range-`for`: the nodes it delivers, in
order, and whether an exception leaves the parser after the last of them (for a
parser that builds the whole sequence before returning, `threw` comes with no
node at all). -/
structure ParseResult (Node : Type) where
  nodes : List Node
  threw : Bool
  deriving DecidableEq, Repr

/-- The observable steps of the process. -/
inductive Event (σ Node Value : Type) where
  /-- The statement `std::cout << "repl> "` -/
  | prompt
  /-- The condition `std::getline(std::cin, line)`: the line it read, `none` when it failed -/
  | read (line : Option String)
  /-- The call `parser::parse(is)` with `is` a new `std::istringstream` over `text` -/
  | parse (text : String)
  /-- The call `cdg(*expr)`: the state the call found, the node, and what came of it -/
  | codegen (before : σ) (node : Node) (result : Outcome (Value × σ))
  /-- The statement `std::cout << value << std::endl` -/
  | print (value : Value)
  /-- The call `std::exit(code)` -/
  | exit (code : Int)
  /-- The call of `std::terminate`, reached by an exception nobody caught -/
  | terminate
  deriving DecidableEq, Repr

/-- How the process ended. -/
inductive Ending where
  | exited (code : Int)
  | terminated
  deriving DecidableEq, Repr

/-- The mutable part of the running process: the `Codegen` object that `main`
owns and `driver_loop` holds by reference, and the log of events so far. -/
structure Proc (σ Node Value : Type) where
  cdg : σ
  log : List (Event σ Node Value)

/-- The process once it has ended: its last state, the lines of `std::cin` never
read, and the way it ended. -/
structure Final (σ Node Value : Type) where
  proc : Proc σ Node Value
  cin : List String
  ending : Ending

variable {σ Node Value : Type}

/-- Append one event to the log. -/
def Proc.emit (p : Proc σ Node Value) (e : Event σ Node Value) : Proc σ Node Value :=
  { p with log := p.log ++ [e] }

/-! ## The driver -/

/-- The body of the range-`for` of `driver_loop` for one node:
`std::cout << cdg(*expr) << std::endl`.  `Except.error` is an exception on its
way out of the loop. -/
def for_body (cdg : σ → Node → Outcome (Value × σ)) (expr : Node) (p : Proc σ Node Value) :
    Except (Proc σ Node Value) (Proc σ Node Value) :=
  match cdg p.cdg expr with
  | .throws => .error (p.emit (.codegen p.cdg expr .throws))
  | .returns (v, s) =>
    .ok (({ p with cdg := s }.emit (.codegen p.cdg expr (.returns (v, s)))).emit (.print v))

/-- The range-`for` of `driver_loop` over the nodes the parser delivers. -/
def range_for (cdg : σ → Node → Outcome (Value × σ)) :
    List Node → Proc σ Node Value → Except (Proc σ Node Value) (Proc σ Node Value)
  | [], p => .ok p
  | expr :: rest, p =>
    match for_body cdg expr p with
    | .error q => .error q
    | .ok q => range_for cdg rest q

/-- Embedding of `driver_loop(Codegen& cdg)`.  The first argument after the two
absent functions is `std::cin`.  Neither `driver_loop` nor `main` has a handler,
so an exception that leaves `parse` or `cdg` ends the process in
`std::terminate`. -/
def driver_loop (parse : String → ParseResult Node) (cdg : σ → Node → Outcome (Value × σ)) :
    List String → Proc σ Node Value → Final σ Node Value
  | [], p => ⟨(p.emit (.read none)).emit (.exit 0), [], .exited 0⟩
  | line :: cin, p =>
    let is := line
    let r := parse is
    match range_for cdg r.nodes ((p.emit (.read (some line))).emit (.parse is)) with
    | .error q => ⟨q.emit .terminate, cin, .terminated⟩
    | .ok q =>
      if r.threw then ⟨q.emit .terminate, cin, .terminated⟩
      else driver_loop parse cdg cin (q.emit .prompt)

/-- Embedding of `main`.  `ctor` is the constructor `Codegen{name}`. -/
def main (parse : String → ParseResult Node) (cdg : σ → Node → Outcome (Value × σ))
    (ctor : String → σ) (cin : List String) : Final σ Node Value :=
  let p : Proc σ Node Value := ⟨ctor "my cool jit", []⟩
  driver_loop parse cdg cin (p.emit .prompt)

/-- A parser whose every call returns the whole sequence. -/
def returningParser (parse : String → List Node) : String → ParseResult Node :=
  fun text => ⟨parse text, false⟩

/-- A Codegen whose every call returns. -/
def returningCodegen (cdg : σ → Node → Value × σ) : σ → Node → Outcome (Value × σ) :=
  fun s n => .returns (cdg s n)

/-! ## Reading a log -/

/-- The nodes on which the Codegen call operator was invoked, in order. -/
def codegenNodes (log : List (Event σ Node Value)) : List Node :=
  log.filterMap fun e => match e with
    | .codegen _ n _ => some n
    | _ => none

/-- The texts of the streams handed to `parser::parse`, in order. -/
def parseTexts (log : List (Event σ Node Value)) : List String :=
  log.filterMap fun e => match e with
    | .parse t => some t
    | _ => none

/-- The reads from `std::cin` together with the calls of the parser, in order. -/
def inputSteps (log : List (Event σ Node Value)) : List (Event σ Node Value) :=
  log.filter fun e => match e with
    | .read _ => true
    | .parse _ => true
    | _ => false

/-- The lines `std::getline` has delivered, in order. -/
def linesRead (log : List (Event σ Node Value)) : List String :=
  log.filterMap fun e => match e with
    | .read (some l) => some l
    | _ => none

/-- The values the Codegen calls returned, in order. -/
def returnedValues (log : List (Event σ Node Value)) : List Value :=
  log.filterMap fun e => match e with
    | .codegen _ _ (.returns (v, _)) => some v
    | _ => none

/-- The values printed, in order. -/
def printedValues (log : List (Event σ Node Value)) : List Value :=
  log.filterMap fun e => match e with
    | .print v => some v
    | _ => none

/-- The number of times the prompt was written. -/
def promptCount (log : List (Event σ Node Value)) : Nat :=
  log.countP fun e => match e with
    | .prompt => true
    | _ => false

/-- The number of attempts to read a line. -/
def readCount (log : List (Event σ Node Value)) : Nat :=
  log.countP fun e => match e with
    | .read _ => true
    | _ => false

/-- The characters one event writes to `std::cout`; `fmt` is the text that
`operator<<` writes for a value, and `std::endl` writes a newline. -/
def Event.written (fmt : Value → List Char) : Event σ Node Value → List Char
  | .prompt => "repl> ".toList
  | .print v => fmt v ++ ['\n']
  | _ => []

/-- Everything written to `std::cout`. -/
def stdout (fmt : Value → List Char) (log : List (Event σ Node Value)) : List Char :=
  log.flatMap (Event.written fmt)

/-- One completed Codegen call: the state it found, the node, the value it
returned and the state it left. -/
structure Call (σ Node Value : Type) where
  before : σ
  node : Node
  value : Value
  after : σ
  deriving DecidableEq, Repr

/-- The completed Codegen calls of a log, in order. -/
def calls (log : List (Event σ Node Value)) : List (Call σ Node Value) :=
  log.filterMap fun e => match e with
    | .codegen s n (.returns (v, t)) => some ⟨s, n, v, t⟩
    | _ => none

/-- The session state is handed from call to call: the first call finds `s`,
each later call finds what the call before it left, and `t` is what the last
call left (`s` itself when there was no call). -/
def Threaded : σ → List (Call σ Node Value) → σ → Prop
  | s, [], t => t = s
  | s, c :: cs, t => c.before = s ∧ Threaded c.after cs t

/-! ## The session as a function of its input

The definitions below describe a session of returning calls without the process
state: they follow the wording of the specification, and the theorems compare
them with the driver. -/

/-- The state of the Codegen session after calls on `nodes`, one after the
other, starting from `s`. -/
def stateAfter (cdg : σ → Node → Value × σ) : σ → List Node → σ
  | s, [] => s
  | s, n :: ns => stateAfter cdg (cdg s n).2 ns

/-- The values returned by the calls on `nodes`, one after the other, starting
from `s`. -/
def valuesOf (cdg : σ → Node → Value × σ) : σ → List Node → List Value
  | _, [] => []
  | s, n :: ns => (cdg s n).1 :: valuesOf cdg (cdg s n).2 ns

/-- The text a session writes after its first prompt: for each input line, one
line of text per node parsed from it, holding the value Codegen returned for
the node, and then the prompt. -/
def expectedOutput (fmt : Value → List Char) (parse : String → List Node)
    (cdg : σ → Node → Value × σ) : σ → List String → List Char
  | _, [] => []
  | s, line :: rest =>
    ((valuesOf cdg s (parse line)).flatMap fun v => fmt v ++ ['\n']) ++ "repl> ".toList
      ++ expectedOutput fmt parse cdg (stateAfter cdg s (parse line)) rest

/-- The events of the range-`for` over `nodes` when every Codegen call
returns, starting from the session state `s`. -/
def nodeEvents (cdg : σ → Node → Value × σ) : σ → List Node → List (Event σ Node Value)
  | _, [] => []
  | s, n :: ns =>
    .codegen s n (.returns (cdg s n)) :: .print (cdg s n).1 :: nodeEvents cdg (cdg s n).2 ns

/-- The session state after the lines `cin`, starting from `s`. -/
def stateAfterLines (parse : String → List Node) (cdg : σ → Node → Value × σ) :
    σ → List String → σ
  | s, [] => s
  | s, line :: rest => stateAfterLines parse cdg (stateAfter cdg s (parse line)) rest

/-- The events of the `while` loop over the lines `cin` when every call
returns, starting from the session state `s`: for each line the read, the
parse, the events of its nodes and the prompt. -/
def loopEvents (parse : String → List Node) (cdg : σ → Node → Value × σ) :
    σ → List String → List (Event σ Node Value)
  | _, [] => []
  | s, line :: rest =>
    .read (some line) :: .parse line :: (nodeEvents cdg s (parse line) ++
      .prompt :: loopEvents parse cdg (stateAfter cdg s (parse line)) rest)

/-- The pairs of events that may stand next to each other in the log of a
session whose calls all return. -/
def Next : Event σ Node Value → Event σ Node Value → Prop
  | .prompt, .read _ => True
  | .read (some line), .parse text => text = line
  | .read none, .exit code => code = 0
  | .parse _, .codegen _ _ (.returns _) => True
  | .parse _, .prompt => True
  | .codegen _ _ (.returns (v, _)), .print w => w = v
  | .print _, .codegen _ _ (.returns _) => True
  | .print _, .prompt => True
  | _, _ => False

/-- The events up to some point of a log are settled when every node of
every line read so far has been handed to Codegen and every value returned so
far has been printed. -/
def Settled (parse : String → List Node) (a : List (Event σ Node Value)) : Prop :=
  codegenNodes a = (linesRead a).flatMap parse
    ∧ printedValues a = returnedValues a
    ∧ (printedValues a).length = (codegenNodes a).length

/-! ## The parser of the specification

`parser::parse` and the lexer under it are not among the sources.  The
definitions of this section model them from sections 3, 4.1 and 4.2 of the
specification.  The specification fixes neither the precedence of each
operator nor the syntax of comments: the precedence table is a parameter
`prec` (`none` for an operator without a defined precedence), and comments
are left out.  A numeric payload is kept as the text of the literal, whose
base-10 reading it is. -/

namespace lexer

/-- Modelled from the spec: the keywords of a Token's kind
`Keyword(def/extern/if/then/else/for/in)`; the lexer module is absent. -/
inductive Keyword where
  | kwDef | kwExtern | kwIf | kwThen | kwElse | kwFor | kwIn
  deriving DecidableEq, Repr

/-- Modelled from the spec: a Token, a tagged value whose kind is one of Number,
Identifier, Operator, Keyword, LeftParen, RightParen, Comma and EndOfInput, with
its payload, and the Error kind that the lexer returns on a malformed literal;
the lexer module is absent. -/
inductive Token where
  | number (literal : List Char)
  | identifier (name : List Char)
  | operator (c : Char)
  | keyword (k : Keyword)
  | leftParen
  | rightParen
  | comma
  | endOfInput
  | error (text : List Char)
  deriving DecidableEq, Repr

/-- Modelled from the spec: the classes of characters that `next_token` tells
apart; the lexer module is absent. -/
inductive CharClass where
  | space | digit | letter | leftParen | rightParen | comma | other
  deriving DecidableEq, Repr

/-- Modelled from the spec: the class of a character, in the order in which
section 4.1 lists the cases: whitespace, digit, letter, the single-character
punctuation, and any other character; the lexer module is absent. -/
def classify (c : Char) : CharClass :=
  if c.isWhitespace then .space
  else if c.isDigit then .digit
  else if c.isAlpha then .letter
  else if c = '(' then .leftParen
  else if c = ')' then .rightParen
  else if c = ',' then .comma
  else .other

/-- Modelled from the spec: the reserved keyword that a word matches exactly,
if any; the lexer module is absent. -/
def keywordOf (word : List Char) : Option Keyword :=
  if word = "def".toList then some .kwDef
  else if word = "extern".toList then some .kwExtern
  else if word = "if".toList then some .kwIf
  else if word = "then".toList then some .kwThen
  else if word = "else".toList then some .kwElse
  else if word = "for".toList then some .kwFor
  else if word = "in".toList then some .kwIn
  else none

/-- Modelled from the spec: `next_token(cursor) -> Token` of section 4.1, absent
from the sources.  It skips whitespace and classifies the next maximal run: a
digit sequence with an optional single decimal point is a Number (with two
points an Error token), a letter followed by alphanumerics is an Identifier
unless it is a keyword, `(`, `)` and `,` are tokens of their own, any other
character is an Operator, and the end of the line is EndOfInput.  The second
component is the cursor after the token. -/
def next_token : List Char → Token × List Char
  | [] => (.endOfInput, [])
  | c :: cs =>
    match classify c with
    | .space => next_token cs
    | .digit =>
      let run := (c :: cs).takeWhile fun d => d.isDigit || d == '.'
      let rest := (c :: cs).dropWhile fun d => d.isDigit || d == '.'
      (if run.count '.' ≤ 1 then .number run else .error run, rest)
    | .letter =>
      let run := (c :: cs).takeWhile Char.isAlphanum
      let rest := (c :: cs).dropWhile Char.isAlphanum
      (match keywordOf run with
        | some k => .keyword k
        | none => .identifier run, rest)
    | .leftParen => (.leftParen, cs)
    | .rightParen => (.rightParen, cs)
    | .comma => (.comma, cs)
    | .other => (.operator c, cs)

/-- Modelled from the spec: the sequence of tokens of a line, by repeated
`next_token` up to and including EndOfInput; the lexer module is absent.  A
token takes at least one character, so a fuel of one more than the length of
the text reaches the end of the line. -/
def tokenize : Nat → List Char → List Token
  | 0, _ => [.endOfInput]
  | fuel + 1, text =>
    match next_token text with
    | (.endOfInput, _) => [.endOfInput]
    | (t, rest) => t :: tokenize fuel rest

/-- Modelled from the spec: the words that the lexer turns into an Identifier
token: a letter followed by alphanumerics that is not a reserved keyword. -/
def isIdentifierName : List Char → Bool
  | [] => false
  | c :: cs => decide (classify c = .letter) && cs.all Char.isAlphanum
      && (keywordOf (c :: cs)).isNone

end lexer

namespace parser

open lexer

/-- Modelled from the spec: an AST node, one of NumberLiteral, VariableRef,
BinaryExpr, CallExpr, IfExpr, PrototypeDecl and FunctionDecl (section 3), each
owning its children; the parser module is absent. -/
inductive AstNode where
  | numberLiteral (literal : List Char)
  | variableRef (name : List Char)
  | binaryExpr (op : Char) (lhs rhs : AstNode)
  | callExpr (callee : List Char) (args : List AstNode)
  | ifExpr (cond thenArm elseArm : AstNode)
  | prototypeDecl (name : List Char) (paramNames : List (List Char))
  | functionDecl (prototype body : AstNode)
  deriving Repr

mutual
/-- Modelled from the spec: a primary expression of section 4.2, absent from the
sources: a literal, a parenthesized expression, an identifier (a call when a
`(` follows it, a variable reference otherwise) or an
`if <cond> then <expr> else <expr>`.  A failure gives the tokens from the
offending one on. -/
def parsePrimary (prec : Char → Option Nat) :
    Nat → List Token → Except (List Token) (AstNode × List Token)
  | 0, ts => .error ts
  | fuel + 1, ts =>
    match ts with
    | .number lit :: rest => .ok (.numberLiteral lit, rest)
    | .leftParen :: rest =>
      match parseExpression prec fuel 0 rest with
      | .error e => .error e
      | .ok (e, .rightParen :: rest') => .ok (e, rest')
      | .ok (_, rest') => .error rest'
    | .identifier name :: .leftParen :: rest =>
      match parseArgs prec fuel rest with
      | .error e => .error e
      | .ok (args, rest') => .ok (.callExpr name args, rest')
    | .identifier name :: rest => .ok (.variableRef name, rest)
    | .keyword .kwIf :: rest =>
      match parseExpression prec fuel 0 rest with
      | .error e => .error e
      | .ok (c, .keyword .kwThen :: rest1) =>
        match parseExpression prec fuel 0 rest1 with
        | .error e => .error e
        | .ok (t, .keyword .kwElse :: rest2) =>
          match parseExpression prec fuel 0 rest2 with
          | .error e => .error e
          | .ok (f, rest3) => .ok (.ifExpr c t f, rest3)
        | .ok (_, rest2) => .error rest2
      | .ok (_, rest1) => .error rest1
    | _ => .error ts

/-- Modelled from the spec: an expression of section 4.2 by precedence climbing,
absent from the sources: a primary expression, into which the trailing binary
operators of precedence at least `minPrec` are folded. -/
def parseExpression (prec : Char → Option Nat) :
    Nat → Nat → List Token → Except (List Token) (AstNode × List Token)
  | 0, _, ts => .error ts
  | fuel + 1, minPrec, ts =>
    match parsePrimary prec fuel ts with
    | .error e => .error e
    | .ok (lhs, rest) => parseBinOpRhs prec fuel minPrec lhs rest

/-- Modelled from the spec: the folding loop of precedence climbing, absent from
the sources.  While the next token is an operator of precedence `p` at least
`minPrec`, its right operand is the expression of minimum precedence `p + 1`
(so that an operator of equal precedence is left to this loop and binds to the
left), and the fold goes on with the new left operand; an operator without a
defined precedence is a failure. -/
def parseBinOpRhs (prec : Char → Option Nat) :
    Nat → Nat → AstNode → List Token → Except (List Token) (AstNode × List Token)
  | 0, _, _, ts => .error ts
  | fuel + 1, minPrec, lhs, ts =>
    match ts with
    | .operator op :: rest =>
      match prec op with
      | none => .error ts
      | some p =>
        if minPrec ≤ p then
          match parseExpression prec fuel (p + 1) rest with
          | .error e => .error e
          | .ok (rhs, rest') => parseBinOpRhs prec fuel minPrec (.binaryExpr op lhs rhs) rest'
        else .ok (lhs, ts)
    | _ => .ok (lhs, ts)

/-- Modelled from the spec: the arguments of a call, expressions separated by
commas up to the closing parenthesis; absent from the sources. -/
def parseArgs (prec : Char → Option Nat) :
    Nat → List Token → Except (List Token) (List AstNode × List Token)
  | 0, ts => .error ts
  | fuel + 1, ts =>
    match ts with
    | .rightParen :: rest => .ok ([], rest)
    | _ =>
      match parseExpression prec fuel 0 ts with
      | .error e => .error e
      | .ok (arg, .comma :: rest) =>
        match parseArgs prec fuel rest with
        | .error e => .error e
        | .ok (args, rest') => .ok (arg :: args, rest')
      | .ok (arg, .rightParen :: rest) => .ok ([arg], rest)
      | .ok (_, rest) => .error rest
end

/-- Modelled from the spec: the parameter names of a prototype up to the closing
parenthesis; absent from the sources.  The specification writes `(<params>)`
without a separator, and the names are taken with or without commas between
them. -/
def parseParams : List Token → Except (List Token) (List (List Char) × List Token)
  | .rightParen :: rest => .ok ([], rest)
  | .identifier name :: rest =>
    match parseParams rest with
    | .error e => .error e
    | .ok (names, rest') => .ok (name :: names, rest')
  | .comma :: rest => parseParams rest
  | ts => .error ts

/-- Modelled from the spec: a prototype `<name>(<params>)`, a PrototypeDecl;
absent from the sources. -/
def parsePrototype : List Token → Except (List Token) (AstNode × List Token)
  | .identifier name :: .leftParen :: rest =>
    match parseParams rest with
    | .error e => .error e
    | .ok (names, rest') => .ok (.prototypeDecl name names, rest')
  | .identifier _ :: rest => .error rest
  | ts => .error ts

/-- Modelled from the spec: one top-level construct of section 4.2, absent from
the sources: `extern <name>(<params>)` is a PrototypeDecl, `def <name>(<params>)
<body-expr>` a FunctionDecl, and anything else a bare expression. -/
def parseTopLevel (prec : Char → Option Nat) (fuel : Nat) :
    List Token → Except (List Token) (AstNode × List Token)
  | .keyword .kwExtern :: rest => parsePrototype rest
  | .keyword .kwDef :: rest =>
    match parsePrototype rest with
    | .error e => .error e
    | .ok (proto, rest1) =>
      match parseExpression prec fuel 0 rest1 with
      | .error e => .error e
      | .ok (body, rest2) => .ok (.functionDecl proto body, rest2)
  | ts => parseExpression prec fuel 0 ts

/-- Modelled from the spec: the two kinds of failure that reach the caller of
the parser, LexicalError and SyntaxError (section 7); absent from the
sources. -/
inductive ErrorKind where
  | lexicalError | syntaxError
  deriving DecidableEq, Repr

/-- Modelled from the spec: a recoverable parse failure, which names the
offending token and its position, counted in tokens from the start of the line;
absent from the sources. -/
structure ParseError where
  kind : ErrorKind
  token : Token
  position : Nat
  deriving DecidableEq, Repr

/-- Modelled from the spec: what `parse` gives for a line: the nodes of the
constructs parsed, in order, and the failure that stopped it, if any; absent
from the sources. -/
structure ParseOutput where
  nodes : List AstNode
  error : Option ParseError
  deriving Repr

/-- Modelled from the spec: the failure whose offending token is the first of
`rest`, in a line of `total` tokens; absent from the sources. -/
def errorAt (total : Nat) (rest : List Token) : ParseError :=
  { kind := match rest.headD .endOfInput with
      | .error _ => .lexicalError
      | _ => .syntaxError
    token := rest.headD .endOfInput
    position := total - rest.length }

/-- Modelled from the spec: the loop of `parse`, absent from the sources: it
parses top-level constructs until EndOfInput; on a failure the construct at
hand is discarded and nothing more of the line is parsed.  `total` is the
number of tokens of the line and `exprFuel` the fuel of each construct. -/
def parseConstructs (prec : Char → Option Nat) (total exprFuel : Nat) :
    Nat → List Token → ParseOutput
  | 0, _ => ⟨[], none⟩
  | fuel + 1, ts =>
    match ts with
    | [] => ⟨[], none⟩
    | .endOfInput :: _ => ⟨[], none⟩
    | _ =>
      match parseTopLevel prec exprFuel ts with
      | .error rest => ⟨[], some (errorAt total rest)⟩
      | .ok (node, rest) =>
        ⟨node :: (parseConstructs prec total exprFuel fuel rest).nodes,
          (parseConstructs prec total exprFuel fuel rest).error⟩

/-- Modelled from the spec: `parse(input_stream) -> sequence<AST Node>` of
section 4.2 on the text of one line, absent from the sources.  The three fuels
are bounds that the line cannot exceed (`parse_fuel_adequate`): a token takes
at least one character, a construct at least one token, and no chain of nested
productions over `n` tokens is longer than `2 * n + 2`. -/
def parse (prec : Char → Option Nat) (text : String) : ParseOutput :=
  let ts := tokenize (text.length + 1) text.toList
  parseConstructs prec ts.length (2 * ts.length + 2) ts.length ts

/-- A precedence table in the usual order: comparison below the additive
operators, these below the multiplicative ones. -/
def usualPrecedence : Char → Option Nat := fun c =>
  if c = '<' then some 10
  else if c = '+' then some 20
  else if c = '-' then some 20
  else if c = '*' then some 40
  else if c = '/' then some 40
  else none

end parser

/-! ## The driver over the parser of the specification -/

theorem range_for_returning (cdg : σ → Node → Value × σ) (nodes : List Node)
    (p : Proc σ Node Value) :
    range_for (returningCodegen cdg) nodes p
      = .ok ⟨stateAfter cdg p.cdg nodes, p.log ++ nodeEvents cdg p.cdg nodes⟩ := by
  induction nodes generalizing p with
  | nil => simp [range_for, stateAfter, nodeEvents]
  | cons n ns ih =>
    simp [range_for, for_body, returningCodegen, ih, stateAfter, nodeEvents, Proc.emit]

theorem driver_loop_returning (parse : String → List Node) (cdg : σ → Node → Value × σ)
    (cin : List String) (p : Proc σ Node Value) :
    driver_loop (returningParser parse) (returningCodegen cdg) cin p
      = ⟨⟨stateAfterLines parse cdg p.cdg cin,
          p.log ++ (loopEvents parse cdg p.cdg cin ++ [.read none, .exit 0])⟩,
         [], .exited 0⟩ := by
  induction cin generalizing p with
  | nil => simp [driver_loop, stateAfterLines, loopEvents, Proc.emit]
  | cons line rest ih =>
    simp [driver_loop, range_for_returning, returningParser, ih, stateAfterLines,
      loopEvents, Proc.emit]

theorem main_returning (parse : String → List Node) (cdg : σ → Node → Value × σ)
    (ctor : String → σ) (cin : List String) :
    main (returningParser parse) (returningCodegen cdg) ctor cin
      = ⟨⟨stateAfterLines parse cdg (ctor "my cool jit") cin,
          .prompt :: (loopEvents parse cdg (ctor "my cool jit") cin ++ [.read none, .exit 0])⟩,
         [], .exited 0⟩ := by
  simp [main, driver_loop_returning, Proc.emit]

/-! ## Projections of the events of a session -/

theorem codegenNodes_append (a b : List (Event σ Node Value)) :
    codegenNodes (a ++ b) = codegenNodes a ++ codegenNodes b := by
  simp [codegenNodes]

theorem codegenNodes_nodeEvents (cdg : σ → Node → Value × σ) (s : σ) (nodes : List Node) :
    codegenNodes (nodeEvents cdg s nodes) = nodes := by
  induction nodes generalizing s with
  | nil => rfl
  | cons n ns ih =>
    have h := ih (cdg s n).2
    simp only [codegenNodes] at h
    simp [codegenNodes, nodeEvents, h]

theorem codegenNodes_loopEvents (parse : String → List Node) (cdg : σ → Node → Value × σ)
    (s : σ) (cin : List String) :
    codegenNodes (loopEvents parse cdg s cin) = cin.flatMap parse := by
  induction cin generalizing s with
  | nil => rfl
  | cons line rest ih =>
    have h1 := codegenNodes_nodeEvents cdg s (parse line)
    have h2 := ih (stateAfter cdg s (parse line))
    simp only [codegenNodes] at h1 h2
    simp [codegenNodes, loopEvents, h1, h2]

/-- C1: in a session whose calls return, the nodes on which the driver invokes
Codegen are exactly the nodes `parse` returned for the first line, then those
for the second line, and so on: each one once, in the order parsed, and no
other node. -/
theorem codegen_invoked_on_parsed_nodes (parse : String → List Node)
    (cdg : σ → Node → Value × σ) (ctor : String → σ) (cin : List String) :
    codegenNodes (main (returningParser parse) (returningCodegen cdg) ctor cin).proc.log
      = cin.flatMap parse := by
  rw [main_returning]
  have h := codegenNodes_loopEvents parse cdg (ctor "my cool jit") cin
  simp only [codegenNodes] at h
  simp [codegenNodes, h]

theorem stdout_nodeEvents (fmt : Value → List Char) (cdg : σ → Node → Value × σ) (s : σ)
    (nodes : List Node) :
    stdout fmt (nodeEvents cdg s nodes)
      = (valuesOf cdg s nodes).flatMap fun v => fmt v ++ ['\n'] := by
  induction nodes generalizing s with
  | nil => rfl
  | cons n ns ih =>
    have h := ih (cdg s n).2
    simp only [stdout] at h
    simp [stdout, nodeEvents, valuesOf, Event.written, h]

theorem stdout_loopEvents (fmt : Value → List Char) (parse : String → List Node)
    (cdg : σ → Node → Value × σ) (s : σ) (cin : List String) :
    stdout fmt (loopEvents parse cdg s cin) = expectedOutput fmt parse cdg s cin := by
  induction cin generalizing s with
  | nil => rfl
  | cons line rest ih =>
    have h1 := stdout_nodeEvents fmt cdg s (parse line)
    have h2 := ih (stateAfter cdg s (parse line))
    simp only [stdout] at h1 h2
    simp [stdout, loopEvents, expectedOutput, Event.written, h1, h2]

theorem printed_nodeEvents (cdg : σ → Node → Value × σ) (s : σ) (nodes : List Node) :
    printedValues (nodeEvents cdg s nodes) = valuesOf cdg s nodes
      ∧ returnedValues (nodeEvents cdg s nodes) = valuesOf cdg s nodes := by
  induction nodes generalizing s with
  | nil => exact ⟨rfl, rfl⟩
  | cons n ns ih =>
    have h := ih (cdg s n).2
    simp only [printedValues, returnedValues] at h
    simp [printedValues, returnedValues, nodeEvents, valuesOf, h.1, h.2]

theorem printed_loopEvents (parse : String → List Node) (cdg : σ → Node → Value × σ) (s : σ)
    (cin : List String) :
    printedValues (loopEvents parse cdg s cin) = returnedValues (loopEvents parse cdg s cin) := by
  induction cin generalizing s with
  | nil => rfl
  | cons line rest ih =>
    have h1 := printed_nodeEvents cdg s (parse line)
    have h2 := ih (stateAfter cdg s (parse line))
    simp only [printedValues, returnedValues] at h1 h2
    simp [printedValues, returnedValues, loopEvents, h1.1, h1.2, h2]

theorem valuesOf_length (cdg : σ → Node → Value × σ) (s : σ) (nodes : List Node) :
    (valuesOf cdg s nodes).length = nodes.length := by
  induction nodes generalizing s with
  | nil => rfl
  | cons n ns ih => simp [valuesOf, ih]

theorem stdout_main (fmt : Value → List Char) (parse : String → List Node)
    (cdg : σ → Node → Value × σ) (ctor : String → σ) (cin : List String) :
    stdout fmt (main (returningParser parse) (returningCodegen cdg) ctor cin).proc.log
      = "repl> ".toList ++ expectedOutput fmt parse cdg (ctor "my cool jit") cin := by
  rw [main_returning]
  have h := stdout_loopEvents fmt parse cdg (ctor "my cool jit") cin
  simp only [stdout] at h
  simp [stdout, Event.written, h]

/-- C2: what the driver writes to `std::cout` in a session whose calls return
is the first prompt and then,
for each input line in turn, one line of text per node parsed from it
(the value the Codegen call returned for the node, followed by the line
terminator, in the order parsed) followed by the prompt, and nothing else; the
values printed are the values the Codegen calls returned, and a line
yields as many values as `parse` returned nodes for it. -/
theorem prints_what_codegen_returns (fmt : Value → List Char) (parse : String → List Node)
    (cdg : σ → Node → Value × σ) (ctor : String → σ) (cin : List String) :
    stdout fmt (main (returningParser parse) (returningCodegen cdg) ctor cin).proc.log
        = "repl> ".toList ++ expectedOutput fmt parse cdg (ctor "my cool jit") cin
      ∧ printedValues (main (returningParser parse) (returningCodegen cdg) ctor cin).proc.log
        = returnedValues (main (returningParser parse) (returningCodegen cdg) ctor cin).proc.log
      ∧ ∀ (s : σ) (line : String),
          (valuesOf cdg s (parse line)).length = (parse line).length := by
  refine ⟨stdout_main fmt parse cdg ctor cin, ?_,
    fun s line => valuesOf_length cdg s (parse line)⟩
  rw [main_returning]
  · have h := printed_loopEvents parse cdg (ctor "my cool jit") cin
    simp only [printedValues, returnedValues] at h
    simp [printedValues, returnedValues, h]

theorem inputSteps_nodeEvents (cdg : σ → Node → Value × σ) (s : σ) (nodes : List Node) :
    inputSteps (nodeEvents cdg s nodes) = [] ∧ parseTexts (nodeEvents cdg s nodes) = []
      ∧ linesRead (nodeEvents cdg s nodes) = [] := by
  induction nodes generalizing s with
  | nil => exact ⟨rfl, rfl, rfl⟩
  | cons n ns ih =>
    have h := ih (cdg s n).2
    simp only [inputSteps, parseTexts, linesRead] at h
    simp [inputSteps, parseTexts, linesRead, nodeEvents, h.1, h.2.1, h.2.2]

theorem inputSteps_loopEvents (parse : String → List Node) (cdg : σ → Node → Value × σ) (s : σ)
    (cin : List String) :
    inputSteps (loopEvents parse cdg s cin)
        = cin.flatMap (fun line => [Event.read (some line), Event.parse line])
      ∧ parseTexts (loopEvents parse cdg s cin) = cin
      ∧ linesRead (loopEvents parse cdg s cin) = cin := by
  induction cin generalizing s with
  | nil => exact ⟨rfl, rfl, rfl⟩
  | cons line rest ih =>
    have h1 := inputSteps_nodeEvents cdg s (parse line)
    have h2 := ih (stateAfter cdg s (parse line))
    simp only [inputSteps, parseTexts, linesRead] at h1 h2
    simp [inputSteps, parseTexts, linesRead, loopEvents, h1.1, h1.2.1, h1.2.2, h2.1, h2.2.1,
      h2.2.2]

/-- C3: in a session whose calls return, the driver calls `parse` once per
input line, in input order, on a stream that holds exactly that line: the texts parsed are the input lines, and
the reads and parses alternate, each line parsed right after it is read and
before the next one is read, up to the read that fails. -/
theorem parse_called_once_per_line (parse : String → List Node)
    (cdg : σ → Node → Value × σ) (ctor : String → σ) (cin : List String) :
    parseTexts (main (returningParser parse) (returningCodegen cdg) ctor cin).proc.log = cin
      ∧ inputSteps (main (returningParser parse) (returningCodegen cdg) ctor cin).proc.log
        = cin.flatMap (fun line => [Event.read (some line), Event.parse line])
            ++ [Event.read none] := by
  rw [main_returning]
  have h := inputSteps_loopEvents parse cdg (ctor "my cool jit") cin
  simp only [inputSteps, parseTexts] at h
  simp [inputSteps, parseTexts, h.1, h.2.1]

theorem Threaded.append {s t u : σ} {a b : List (Call σ Node Value)}
    (ha : Threaded s a t) (hb : Threaded t b u) : Threaded s (a ++ b) u := by
  induction a generalizing s with
  | nil =>
    have h : t = s := ha
    subst h
    exact hb
  | cons c cs ih => exact ⟨ha.1, ih ha.2⟩

theorem calls_nodeEvents (cdg : σ → Node → Value × σ) (s : σ) (nodes : List Node) :
    Threaded s (calls (nodeEvents cdg s nodes)) (stateAfter cdg s nodes)
      ∧ ∀ c ∈ calls (nodeEvents cdg s nodes), cdg c.before c.node = (c.value, c.after) := by
  induction nodes generalizing s with
  | nil => exact ⟨rfl, by simp [calls, nodeEvents]⟩
  | cons n ns ih =>
    have h := ih (cdg s n).2
    simp only [calls] at h
    refine ⟨?_, ?_⟩
    · simpa [calls, nodeEvents, stateAfter, Threaded] using h.1
    · intro c hc
      simp only [calls, nodeEvents, List.filterMap_cons, List.mem_cons] at hc
      rcases hc with hc | hc
      · subst hc; rfl
      · exact h.2 c hc

theorem calls_loopEvents (parse : String → List Node) (cdg : σ → Node → Value × σ) (s : σ)
    (cin : List String) :
    Threaded s (calls (loopEvents parse cdg s cin)) (stateAfterLines parse cdg s cin)
      ∧ ∀ c ∈ calls (loopEvents parse cdg s cin), cdg c.before c.node = (c.value, c.after) := by
  induction cin generalizing s with
  | nil => exact ⟨rfl, by simp [calls, loopEvents]⟩
  | cons line rest ih =>
    have h1 := calls_nodeEvents cdg s (parse line)
    have h2 := ih (stateAfter cdg s (parse line))
    have e : calls (loopEvents parse cdg s (line :: rest))
        = calls (nodeEvents cdg s (parse line))
          ++ calls (loopEvents parse cdg (stateAfter cdg s (parse line)) rest) := by
      simp [calls, loopEvents]
    rw [e]
    refine ⟨Threaded.append h1.1 h2.1, ?_⟩
    intro c hc
    rcases List.mem_append.1 hc with hc | hc
    · exact h1.2 c hc
    · exact h2.2 c hc

theorem callNodes_nodeEvents (cdg : σ → Node → Value × σ) (s : σ) (nodes : List Node) :
    (calls (nodeEvents cdg s nodes)).map (fun c => c.node) = nodes := by
  induction nodes generalizing s with
  | nil => rfl
  | cons n ns ih =>
    have h := ih (cdg s n).2
    simp only [calls] at h
    simp [calls, nodeEvents, h]

theorem callNodes_loopEvents (parse : String → List Node) (cdg : σ → Node → Value × σ) (s : σ)
    (cin : List String) :
    (calls (loopEvents parse cdg s cin)).map (fun c => c.node) = cin.flatMap parse := by
  induction cin generalizing s with
  | nil => rfl
  | cons line rest ih =>
    have h1 := callNodes_nodeEvents cdg s (parse line)
    have h2 := ih (stateAfter cdg s (parse line))
    simp only [calls] at h1 h2
    simp [calls, loopEvents, h1, h2]

theorem stateAfter_append (cdg : σ → Node → Value × σ) (s : σ) (a b : List Node) :
    stateAfter cdg s (a ++ b) = stateAfter cdg (stateAfter cdg s a) b := by
  induction a generalizing s with
  | nil => rfl
  | cons n ns ih => simp [stateAfter, ih]

theorem stateAfterLines_eq (parse : String → List Node) (cdg : σ → Node → Value × σ) (s : σ)
    (cin : List String) :
    stateAfterLines parse cdg s cin = stateAfter cdg s (cin.flatMap parse) := by
  induction cin generalizing s with
  | nil => rfl
  | cons line rest ih => simp [stateAfterLines, ih, stateAfter_append]

theorem calls_main_log (parse : String → List Node) (cdg : σ → Node → Value × σ) (s : σ)
    (cin : List String) :
    calls (Event.prompt :: (loopEvents parse cdg s cin ++ [Event.read none, Event.exit 0]))
      = calls (loopEvents parse cdg s cin) := by
  simp [calls]

/-- C4: a session whose calls return has one Codegen object from start to end.
The first
Codegen call finds the object as its constructor made it with the name
"my cool jit", every later call finds the state the call before it left,
whether or not a line boundary lies between the two, and the state at the end
of the session is the state the last call left; each call is the Codegen call
operator applied to the state found and the node. -/
theorem codegen_state_persists (parse : String → List Node)
    (cdg : σ → Node → Value × σ) (ctor : String → σ) (cin : List String) :
    Threaded (ctor "my cool jit")
        (calls (main (returningParser parse) (returningCodegen cdg) ctor cin).proc.log)
        (main (returningParser parse) (returningCodegen cdg) ctor cin).proc.cdg
      ∧ (∀ c ∈ calls (main (returningParser parse) (returningCodegen cdg) ctor cin).proc.log,
          cdg c.before c.node = (c.value, c.after))
      ∧ (calls (main (returningParser parse) (returningCodegen cdg) ctor cin).proc.log).map
          (fun c => c.node) = cin.flatMap parse
      ∧ (main (returningParser parse) (returningCodegen cdg) ctor cin).proc.cdg
          = stateAfter cdg (ctor "my cool jit") (cin.flatMap parse) := by
  rw [main_returning]
  simp only [calls_main_log]
  exact ⟨(calls_loopEvents parse cdg _ cin).1, (calls_loopEvents parse cdg _ cin).2,
    callNodes_loopEvents parse cdg _ cin, stateAfterLines_eq parse cdg _ cin⟩

/-! ## The order of events -/

theorem chain_nodeEvents (cdg : σ → Node → Value × σ) (s : σ) (nodes : List Node)
    (e : Event σ Node Value) (tail : List (Event σ Node Value))
    (he : (∃ t, e = .parse t) ∨ ∃ v, e = .print v)
    (htail : List.Chain Next .prompt tail) :
    List.Chain Next e (nodeEvents cdg s nodes ++ .prompt :: tail) := by
  induction nodes generalizing s e with
  | nil =>
    refine List.Chain.cons ?_ htail
    rcases he with ⟨t, rfl⟩ | ⟨v, rfl⟩ <;> simp [Next]
  | cons n ns ih =>
    refine List.Chain.cons ?_ (List.Chain.cons ?_ (ih _ _ (Or.inr ⟨_, rfl⟩)))
    · rcases he with ⟨t, rfl⟩ | ⟨v, rfl⟩ <;> simp [Next]
    · simp [Next]

theorem chain_loopEvents (parse : String → List Node) (cdg : σ → Node → Value × σ) (s : σ)
    (cin : List String) :
    List.Chain Next .prompt (loopEvents parse cdg s cin ++ [.read none, .exit 0]) := by
  induction cin generalizing s with
  | nil => simp [loopEvents, Next]
  | cons line rest ih =>
    have e : loopEvents parse cdg s (line :: rest) ++ [Event.read none, Event.exit 0]
        = Event.read (some line) :: Event.parse line :: (nodeEvents cdg s (parse line)
          ++ Event.prompt :: (loopEvents parse cdg (stateAfter cdg s (parse line)) rest
            ++ [Event.read none, Event.exit 0])) := by
      simp [loopEvents]
    rw [e]
    refine List.Chain.cons (by simp [Next]) (List.Chain.cons (by simp [Next]) ?_)
    exact chain_nodeEvents cdg s (parse line) _ _ (Or.inl ⟨_, rfl⟩) (ih _)

theorem next_of_infix (parse : String → List Node) (cdg : σ → Node → Value × σ)
    (ctor : String → σ) (cin : List String) (x y : Event σ Node Value)
    (h : [x, y] <:+: (main (returningParser parse) (returningCodegen cdg) ctor cin).proc.log) :
    Next x y := by
  rw [main_returning] at h
  have hc : List.Chain' Next
      (Event.prompt :: (loopEvents parse cdg (ctor "my cool jit") cin
        ++ [Event.read none, Event.exit 0])) :=
    chain_loopEvents parse cdg _ cin
  have h2 := hc.infix h
  simpa using h2

theorem counts_nodeEvents (cdg : σ → Node → Value × σ) (s : σ) (nodes : List Node) :
    promptCount (nodeEvents cdg s nodes) = 0 ∧ readCount (nodeEvents cdg s nodes) = 0 := by
  induction nodes generalizing s with
  | nil => exact ⟨rfl, rfl⟩
  | cons n ns ih =>
    have h := ih (cdg s n).2
    simp only [promptCount, readCount] at h
    simp [promptCount, readCount, nodeEvents, h.1, h.2]

theorem counts_loopEvents (parse : String → List Node) (cdg : σ → Node → Value × σ) (s : σ)
    (cin : List String) :
    promptCount (loopEvents parse cdg s cin) = cin.length
      ∧ readCount (loopEvents parse cdg s cin) = cin.length := by
  induction cin generalizing s with
  | nil => exact ⟨rfl, rfl⟩
  | cons line rest ih =>
    have h1 := counts_nodeEvents cdg s (parse line)
    have h2 := ih (stateAfter cdg s (parse line))
    simp only [promptCount, readCount] at h1 h2
    simp [promptCount, readCount, loopEvents, List.countP_cons, h1.1, h1.2, h2.1, h2.2]

theorem expectedOutput_ends_with_prompt (fmt : Value → List Char) (parse : String → List Node)
    (cdg : σ → Node → Value × σ) (s : σ) (cin : List String) :
    "repl> ".toList <:+ "repl> ".toList ++ expectedOutput fmt parse cdg s cin := by
  induction cin generalizing s with
  | nil => simp [expectedOutput]
  | cons line rest ih =>
    have h := ih (stateAfter cdg s (parse line))
    obtain ⟨t, ht⟩ := h
    refine ⟨"repl> ".toList
      ++ ((valuesOf cdg s (parse line)).flatMap fun v => fmt v ++ ['\n']) ++ t, ?_⟩
    simp only [expectedOutput, List.append_assoc]
    rw [ht]

/-- C7: the prompt is written before each read.  A session of `n` input lines
whose calls return writes the prompt `n + 1` times and attempts `n + 1` reads, the last of which
fails; the log starts with a prompt, the event right before each read is a
prompt, and no prompt comes right after another prompt, so each read is
preceded by exactly one prompt; the text written to `std::cout` begins and ends
with the prompt. -/
theorem prompt_before_each_read (fmt : Value → List Char) (parse : String → List Node)
    (cdg : σ → Node → Value × σ) (ctor : String → σ) (cin : List String) :
    promptCount (main (returningParser parse) (returningCodegen cdg) ctor cin).proc.log
        = cin.length + 1
      ∧ readCount (main (returningParser parse) (returningCodegen cdg) ctor cin).proc.log
        = cin.length + 1
      ∧ (main (returningParser parse) (returningCodegen cdg) ctor cin).proc.log.head?
        = some Event.prompt
      ∧ (∀ x r, [x, Event.read r]
            <:+: (main (returningParser parse) (returningCodegen cdg) ctor cin).proc.log →
          x = Event.prompt)
      ∧ (∀ x, [x, Event.prompt]
            <:+: (main (returningParser parse) (returningCodegen cdg) ctor cin).proc.log →
          x ≠ Event.prompt)
      ∧ "repl> ".toList
          <+: stdout fmt (main (returningParser parse) (returningCodegen cdg) ctor cin).proc.log
      ∧ "repl> ".toList
          <:+ stdout fmt (main (returningParser parse) (returningCodegen cdg) ctor cin).proc.log := by
  have hout := stdout_main fmt parse cdg ctor cin
  refine ⟨?_, ?_, ?_, ?_, ?_, ?_, ?_⟩
  · rw [main_returning]
    have h := (counts_loopEvents parse cdg (ctor "my cool jit") cin).1
    simp only [promptCount] at h
    simp [promptCount, List.countP_cons, h]
  · rw [main_returning]
    have h := (counts_loopEvents parse cdg (ctor "my cool jit") cin).2
    simp only [readCount] at h
    simp [readCount, List.countP_cons, h]
  · rw [main_returning]
    rfl
  · intro x r h
    have hn := next_of_infix parse cdg ctor cin _ _ h
    cases x <;> simp [Next] at hn ⊢
  · intro x h
    have hn := next_of_infix parse cdg ctor cin _ _ h
    cases x <;> simp [Next] at hn ⊢
  · rw [hout]
    exact List.prefix_append _ _
  · rw [hout]
    exact expectedOutput_ends_with_prompt fmt parse cdg _ cin

theorem read_not_mem_nodeEvents (cdg : σ → Node → Value × σ) (s : σ) (nodes : List Node)
    (r : Option String) : Event.read r ∉ nodeEvents cdg s nodes := by
  induction nodes generalizing s with
  | nil => simp [nodeEvents]
  | cons n ns ih => simp [nodeEvents, ih]

theorem split_after {α : Type} (c d a b : List α) (x : α) (hx : x ∉ c)
    (h : c ++ d = a ++ x :: b) : ∃ a', a = c ++ a' ∧ d = a' ++ x :: b := by
  induction c generalizing a with
  | nil => exact ⟨a, rfl, h⟩
  | cons y ys ih =>
    cases a with
    | nil =>
      simp only [List.cons_append, List.nil_append, List.cons.injEq] at h
      exact absurd h.1.symm (fun e => hx (by simp [e]))
    | cons z zs =>
      simp only [List.cons_append, List.cons.injEq] at h
      obtain ⟨a', ha, hd⟩ := ih zs (fun hm => hx (List.mem_cons_of_mem _ hm)) h.2
      exact ⟨a', by rw [h.1, ha]; rfl, hd⟩

theorem settled_block (parse : String → List Node) (cdg : σ → Node → Value × σ) (s : σ)
    (line : String) (a : List (Event σ Node Value)) (h : Settled parse a) :
    Settled parse (Event.read (some line) :: Event.parse line
      :: (nodeEvents cdg s (parse line) ++ Event.prompt :: a)) := by
  obtain ⟨h1, h2, h3⟩ := h
  have n1 := codegenNodes_nodeEvents cdg s (parse line)
  have n2 := printed_nodeEvents cdg s (parse line)
  have n3 := (inputSteps_nodeEvents cdg s (parse line)).2.2
  have n4 := valuesOf_length cdg s (parse line)
  simp only [codegenNodes, printedValues, returnedValues, linesRead] at h1 h2 h3 n1 n2 n3
  refine ⟨?_, ?_, ?_⟩
  · simp [codegenNodes, linesRead, n1, n3, h1]
  · simp [printedValues, returnedValues, n2.1, n2.2, h2]
  · simp [printedValues, codegenNodes, n1, n2.1, n4, h3]

theorem settled_loopEvents (parse : String → List Node) (cdg : σ → Node → Value × σ) (s : σ)
    (cin : List String) (a b : List (Event σ Node Value)) (r : Option String)
    (h : loopEvents parse cdg s cin ++ [Event.read none, Event.exit 0]
      = a ++ Event.read r :: b) : Settled parse a := by
  induction cin generalizing s a with
  | nil =>
    cases a with
    | nil => exact ⟨rfl, rfl, rfl⟩
    | cons z zs =>
      cases zs with
      | nil => simp [loopEvents] at h
      | cons y ys => simp [loopEvents] at h
  | cons line rest ih =>
    cases a with
    | nil => exact ⟨rfl, rfl, rfl⟩
    | cons z zs =>
      cases zs with
      | nil => simp [loopEvents] at h
      | cons y ys =>
        simp only [loopEvents, List.cons_append, List.cons.injEq, List.append_assoc] at h
        obtain ⟨hz, hy, h⟩ := h
        obtain ⟨a', ha, hd⟩ := split_after _ _ _ _ _ (read_not_mem_nodeEvents cdg s (parse line) r) h
        cases a' with
        | nil => simp at hd
        | cons w ws =>
          simp only [List.cons_append, List.cons.injEq] at hd
          have hs := ih _ ws hd.2
          rw [← hz, ← hy, ha, ← hd.1]
          exact settled_block parse cdg s line ws hs

/-- C8: processing is strictly sequential.  In the log of a session whose
calls return, a Codegen
call is followed at once by the print of the value it returned, a Codegen call
is made only right after the parse of its line or right after the print of the
node before it, and the log ends with the exit; at every read from the input,
every node of every line read before has been handed to Codegen and every value
returned has been printed. -/
theorem processing_is_sequential (parse : String → List Node)
    (cdg : σ → Node → Value × σ) (ctor : String → σ) (cin : List String) :
    (∀ s n r y, [Event.codegen s n r, y]
          <:+: (main (returningParser parse) (returningCodegen cdg) ctor cin).proc.log →
        ∃ v t, r = Outcome.returns (v, t) ∧ y = Event.print v)
      ∧ (∀ x s n r, [x, Event.codegen s n r]
          <:+: (main (returningParser parse) (returningCodegen cdg) ctor cin).proc.log →
        (∃ t, x = Event.parse t) ∨ ∃ v, x = Event.print v)
      ∧ (main (returningParser parse) (returningCodegen cdg) ctor cin).proc.log.getLast?
        = some (Event.exit 0)
      ∧ (∀ a r b, (main (returningParser parse) (returningCodegen cdg) ctor cin).proc.log
          = a ++ Event.read r :: b → Settled parse a) := by
  refine ⟨?_, ?_, ?_, ?_⟩
  · intro s n r y h
    have hn := next_of_infix parse cdg ctor cin _ _ h
    rcases r with ⟨v, t⟩ | _
    · cases y <;> simp [Next] at hn ⊢
      exact hn
    · cases y <;> simp [Next] at hn
  · intro x s n r h
    have hn := next_of_infix parse cdg ctor cin _ _ h
    cases x <;> simp [Next] at hn ⊢
  · rw [main_returning]
    have e : Event.prompt :: (loopEvents parse cdg (ctor "my cool jit") cin
          ++ [Event.read none, Event.exit 0])
        = (Event.prompt :: (loopEvents parse cdg (ctor "my cool jit") cin
          ++ [Event.read none])) ++ [Event.exit 0] := by simp
    simp only [e]
    exact List.getLast?_concat _
  · intro a r b h
    rw [main_returning] at h
    cases a with
    | nil => simp at h
    | cons z zs =>
      simp only [List.cons_append, List.cons.injEq] at h
      have hs := settled_loopEvents parse cdg _ cin zs b r h.2
      rw [← h.1]
      obtain ⟨h1, h2, h3⟩ := hs
      simp only [codegenNodes, printedValues, returnedValues, linesRead] at h1 h2 h3
      exact ⟨by simp [codegenNodes, linesRead, h1],
        by simp [printedValues, returnedValues, h2],
        by simp [printedValues, codegenNodes, h3]⟩

/-! ## The end of the session -/

theorem no_end_in_nodeEvents (cdg : σ → Node → Value × σ) (s : σ) (nodes : List Node) :
    ∀ e ∈ nodeEvents cdg s nodes,
      e ≠ Event.read none ∧ e ≠ Event.terminate ∧ ∀ c, e ≠ Event.exit c := by
  induction nodes generalizing s with
  | nil => simp [nodeEvents]
  | cons n ns ih =>
    intro e he
    simp only [nodeEvents, List.mem_cons] at he
    rcases he with rfl | rfl | he
    · simp
    · simp
    · exact ih _ e he

theorem no_end_in_loopEvents (parse : String → List Node) (cdg : σ → Node → Value × σ) (s : σ)
    (cin : List String) :
    ∀ e ∈ loopEvents parse cdg s cin,
      e ≠ Event.read none ∧ e ≠ Event.terminate ∧ ∀ c, e ≠ Event.exit c := by
  induction cin generalizing s with
  | nil => simp [loopEvents]
  | cons line rest ih =>
    intro e he
    simp only [loopEvents, List.mem_cons, List.mem_append] at he
    rcases he with rfl | rfl | he | rfl | he
    · simp
    · simp
    · exact no_end_in_nodeEvents cdg s (parse line) e he
    · simp
    · exact ih _ e he

/-- C6: a session over a finite input whose calls all return ends, and it ends
by `std::exit(0)`: no line is left unread, the log is made of a part in which
every input line is read, in order, and which holds no failed read, no exit and
no `std::terminate`, followed by the read that fails and the exit with code 0.
The process ends inside `driver_loop`, which has no path back to `main`. -/
theorem exits_with_zero_at_end_of_input (parse : String → List Node)
    (cdg : σ → Node → Value × σ) (ctor : String → σ) (cin : List String) :
    (main (returningParser parse) (returningCodegen cdg) ctor cin).ending = Ending.exited 0
      ∧ (main (returningParser parse) (returningCodegen cdg) ctor cin).cin = []
      ∧ ∃ body, (main (returningParser parse) (returningCodegen cdg) ctor cin).proc.log
            = body ++ [Event.read none, Event.exit 0]
          ∧ linesRead body = cin
          ∧ ∀ e ∈ body, e ≠ Event.read none ∧ e ≠ Event.terminate ∧ ∀ c, e ≠ Event.exit c := by
  rw [main_returning]
  refine ⟨rfl, rfl, Event.prompt :: loopEvents parse cdg (ctor "my cool jit") cin, by simp, ?_, ?_⟩
  · have h := (inputSteps_loopEvents parse cdg (ctor "my cool jit") cin).2.2
    simp only [linesRead] at h
    simp [linesRead, h]
  · intro e he
    rcases List.mem_cons.1 he with rfl | he
    · simp
    · exact no_end_in_loopEvents parse cdg _ cin e he

/-! ## Composition -/

theorem loopEvents_append (parse : String → List Node) (cdg : σ → Node → Value × σ) (s : σ)
    (xs ys : List String) :
    loopEvents parse cdg s (xs ++ ys)
      = loopEvents parse cdg s xs ++ loopEvents parse cdg (stateAfterLines parse cdg s xs) ys := by
  induction xs generalizing s with
  | nil => rfl
  | cons line rest ih => simp [loopEvents, stateAfterLines, ih]

theorem stateAfterLines_append (parse : String → List Node) (cdg : σ → Node → Value × σ)
    (s : σ) (xs ys : List String) :
    stateAfterLines parse cdg s (xs ++ ys)
      = stateAfterLines parse cdg (stateAfterLines parse cdg s xs) ys := by
  induction xs generalizing s with
  | nil => rfl
  | cons line rest ih => simp [stateAfterLines, ih]

/-- C10: the loop keeps nothing between lines but the Codegen session.  With
calls that return, run on
`xs ++ ys` from the session state `s`, `driver_loop` writes the text it writes
on `xs` from `s` followed by the text it writes on `ys` from the state reached
after `xs`, makes the Codegen calls of the one followed by those of the
other, and ends in the state in which the run on `ys` ends. -/
theorem driver_loop_compositional (fmt : Value → List Char) (parse : String → List Node)
    (cdg : σ → Node → Value × σ) (s : σ) (xs ys : List String) :
    stdout fmt (driver_loop (returningParser parse) (returningCodegen cdg) (xs ++ ys)
          ⟨s, []⟩).proc.log
        = stdout fmt (driver_loop (returningParser parse) (returningCodegen cdg) xs
            ⟨s, []⟩).proc.log
          ++ stdout fmt (driver_loop (returningParser parse) (returningCodegen cdg) ys
            ⟨(driver_loop (returningParser parse) (returningCodegen cdg) xs
              ⟨s, []⟩).proc.cdg, ([] : List (Event σ Node Value))⟩).proc.log
      ∧ calls (driver_loop (returningParser parse) (returningCodegen cdg) (xs ++ ys)
          ⟨s, []⟩).proc.log
        = calls (driver_loop (returningParser parse) (returningCodegen cdg) xs
            ⟨s, []⟩).proc.log
          ++ calls (driver_loop (returningParser parse) (returningCodegen cdg) ys
            ⟨(driver_loop (returningParser parse) (returningCodegen cdg) xs
              ⟨s, []⟩).proc.cdg, ([] : List (Event σ Node Value))⟩).proc.log
      ∧ (driver_loop (returningParser parse) (returningCodegen cdg) (xs ++ ys)
          ⟨s, ([] : List (Event σ Node Value))⟩).proc.cdg
        = (driver_loop (returningParser parse) (returningCodegen cdg) ys
            ⟨(driver_loop (returningParser parse) (returningCodegen cdg) xs
              ⟨s, []⟩).proc.cdg, ([] : List (Event σ Node Value))⟩).proc.cdg := by
  simp only [driver_loop_returning, List.nil_append]
  refine ⟨?_, ?_, stateAfterLines_append parse cdg s xs ys⟩
  · simp [stdout, loopEvents_append, Event.written]
  · simp [calls, loopEvents_append]

/-! ## Failures of parsing and of compiling -/

namespace parser

open lexer

theorem isAlphanum_of_letter (c : Char) (h : classify c = .letter) : c.isAlphanum = true := by
  unfold classify at h
  split_ifs at h with h1 h2 h3
  simp [Char.isAlphanum, h3]

theorem next_token_identifier (name rest : List Char) (h : isIdentifierName name = true)
    (hrest : rest.head?.all (fun c => !c.isAlphanum) = true) :
    next_token (name ++ rest) = (.identifier name, rest) := by
  cases name with
  | nil => simp [isIdentifierName] at h
  | cons c cs =>
    simp only [isIdentifierName, Bool.and_eq_true, decide_eq_true_eq, List.all_eq_true,
      Option.isNone_iff_eq_none] at h
    obtain ⟨⟨hc, hcs⟩, hk⟩ := h
    have hall : ∀ x ∈ c :: cs, Char.isAlphanum x = true := by
      intro x hx
      rcases List.mem_cons.1 hx with rfl | hx
      · exact isAlphanum_of_letter _ hc
      · exact hcs x hx
    have ht : ((c :: cs) ++ rest).takeWhile Char.isAlphanum = c :: cs := by
      rw [List.takeWhile_append_of_pos hall]
      cases rest with
      | nil => simp
      | cons r rs =>
        simp at hrest
        simp [List.takeWhile_cons, hrest]
    have hd : ((c :: cs) ++ rest).dropWhile Char.isAlphanum = rest := by
      rw [List.dropWhile_append_of_pos hall]
      cases rest with
      | nil => simp
      | cons r rs =>
        simp at hrest
        simp [List.dropWhile_cons, hrest]
    have e : next_token (c :: cs ++ rest)
        = ((match keywordOf (((c :: cs) ++ rest).takeWhile Char.isAlphanum) with
            | some k => Token.keyword k
            | none => Token.identifier (((c :: cs) ++ rest).takeWhile Char.isAlphanum)),
           ((c :: cs) ++ rest).dropWhile Char.isAlphanum) := by
      simp only [List.cons_append, next_token, hc]
      rfl
    rw [e, ht, hd, hk]

theorem next_token_blank (cs : List Char) : next_token (' ' :: cs) = next_token cs := by
  have h : classify ' ' = .space := by decide
  simp only [next_token, h]

theorem next_token_operator (o : Char) (cs : List Char) (h : classify o = .other) :
    next_token (o :: cs) = (.operator o, cs) := by
  simp only [next_token, h]

theorem tokenize_step (fuel : Nat) (text rest : List Char) (t : Token)
    (h : next_token text = (t, rest)) (ht : t ≠ .endOfInput) :
    tokenize (fuel + 1) text = t :: tokenize fuel rest := by
  simp only [tokenize, h]

theorem tokenize_nil (fuel : Nat) : tokenize fuel [] = [.endOfInput] := by
  cases fuel <;> simp [tokenize, next_token]

theorem consumes (prec : Char → Option Nat) (fuel : Nat) :
    (∀ ts e rest, parsePrimary prec fuel ts = .ok (e, rest) → rest.length < ts.length)
    ∧ (∀ m ts e rest, parseExpression prec fuel m ts = .ok (e, rest) → rest.length < ts.length)
    ∧ (∀ m lhs ts e rest, parseBinOpRhs prec fuel m lhs ts = .ok (e, rest) →
        rest.length ≤ ts.length)
    ∧ (∀ ts es rest, parseArgs prec fuel ts = .ok (es, rest) → rest.length < ts.length) := by
  induction fuel with
  | zero => simp [parsePrimary, parseExpression, parseBinOpRhs, parseArgs]
  | succ f ih =>
    obtain ⟨ihP, ihE, ihB, ihA⟩ := ih
    refine ⟨?_, ?_, ?_, ?_⟩
    · intro ts e rest h
      unfold parsePrimary at h
      split at h
      · simp at h; rw [← h.2]; simp
      · split at h
        · simp at h
        · rename_i heq
          simp at h
          have := ihE _ _ _ _ heq
          rw [← h.2]
          simp at this ⊢
          omega
        · simp at h
      · split at h
        · simp at h
        · rename_i heq
          simp at h
          have := ihA _ _ _ heq
          rw [← h.2]
          simp
          omega
      · simp at h; rw [← h.2]; simp
      · split at h
        · simp at h
        · rename_i heq1
          split at h
          · simp at h
          · rename_i heq2
            split at h
            · simp at h
            · rename_i heq3
              simp at h
              have a1 := ihE _ _ _ _ heq1
              have a2 := ihE _ _ _ _ heq2
              have a3 := ihE _ _ _ _ heq3
              rw [← h.2]
              simp at a1 a2 a3 ⊢
              omega
          · simp at h
        · simp at h
      · simp at h
    · intro m ts e rest h
      unfold parseExpression at h
      split at h
      · simp at h
      · rename_i heq
        have a1 := ihP _ _ _ heq
        have a2 := ihB _ _ _ _ _ h
        omega
    · intro m lhs ts e rest h
      unfold parseBinOpRhs at h
      split at h
      · split at h
        · simp at h
        · split at h
          · split at h
            · simp at h
            · rename_i heq
              have a1 := ihE _ _ _ _ heq
              have a2 := ihB _ _ _ _ _ h
              simp
              omega
          · simp at h
            rw [← h.2]
      · simp at h
        rw [← h.2]
    · intro ts es rest h
      unfold parseArgs at h
      split at h
      · simp at h; rw [← h.2]; simp
      · split at h
        · simp at h
        · rename_i heq
          split at h
          · simp at h
          · rename_i heq2
            simp at h
            have a1 := ihE _ _ _ _ heq
            have a2 := ihA _ _ _ heq2
            rw [← h.2]
            simp at a1
            omega
        · rename_i heq
          simp at h
          have a1 := ihE _ _ _ _ heq
          rw [← h.2]
          simp at a1
          omega
        · simp at h

theorem fuel_step (prec : Char → Option Nat) (fuel : Nat) :
    (∀ ts, 2 * ts.length + 1 ≤ fuel →
        parsePrimary prec (fuel + 1) ts = parsePrimary prec fuel ts)
    ∧ (∀ m ts, 2 * ts.length + 2 ≤ fuel →
        parseExpression prec (fuel + 1) m ts = parseExpression prec fuel m ts)
    ∧ (∀ m lhs ts, 2 * ts.length + 1 ≤ fuel →
        parseBinOpRhs prec (fuel + 1) m lhs ts = parseBinOpRhs prec fuel m lhs ts)
    ∧ (∀ ts, 2 * ts.length + 3 ≤ fuel →
        parseArgs prec (fuel + 1) ts = parseArgs prec fuel ts) := by
  induction fuel with
  | zero =>
    refine ⟨?_, ?_, ?_, ?_⟩ <;> intros <;> omega
  | succ f ih =>
    obtain ⟨ihP, ihE, ihB, ihA⟩ := ih
    have cE := (consumes prec f).2.1
    refine ⟨?_, ?_, ?_, ?_⟩
    · intro ts hb
      unfold parsePrimary
      split
      · rfl
      · rw [ihE _ _ (by simp at hb ⊢; omega)]
      · rw [ihA _ (by simp at hb ⊢; omega)]
      · rfl
      · rename_i rest
        rw [ihE _ _ (by simp at hb ⊢; omega)]
        cases h1 : parseExpression prec f 0 rest with
        | error e => rfl
        | ok r =>
          obtain ⟨c, rest1⟩ := r
          have l1 := cE _ _ _ _ h1
          split
          · rfl
          · rename_i c1 r1 heq
            simp only [Except.ok.injEq, Prod.mk.injEq] at heq
            obtain ⟨-, hr⟩ := heq
            subst hr
            rw [ihE _ _ (by simp at hb l1 ⊢; omega)]
            cases h2 : parseExpression prec f 0 r1 with
            | error e => rfl
            | ok r =>
              obtain ⟨t, rest2⟩ := r
              have l2 := cE _ _ _ _ h2
              split
              · rfl
              · rename_i t1 r2 heq2
                simp only [Except.ok.injEq, Prod.mk.injEq] at heq2
                obtain ⟨-, hr2⟩ := heq2
                subst hr2
                rw [ihE _ _ (by simp at hb l1 l2 ⊢; omega)]
              · rfl
          · rfl
      · rfl
    · intro m ts hb
      unfold parseExpression
      rw [ihP ts (by omega)]
      cases h : parsePrimary prec f ts with
      | error e => rfl
      | ok r =>
        obtain ⟨lhs, rest⟩ := r
        have l := (consumes prec f).1 _ _ _ h
        simp only []
        rw [ihB _ _ _ (by omega)]
    · intro m lhs ts hb
      unfold parseBinOpRhs
      split
      · rename_i op rest
        split
        · rfl
        · split
          · rw [ihE _ _ (by simp at hb ⊢; omega)]
            cases h : parseExpression prec f _ rest with
            | error e => rfl
            | ok r =>
              obtain ⟨rhs, rest1⟩ := r
              have l := cE _ _ _ _ h
              simp only []
              rw [ihB _ _ _ (by simp at hb ⊢; omega)]
          · rfl
      · rfl
    · intro ts hb
      unfold parseArgs
      split
      · rfl
      · rw [ihE _ _ (by omega)]
        cases h : parseExpression prec f 0 ts with
        | error e => rfl
        | ok r =>
          obtain ⟨arg, rest⟩ := r
          have l := cE _ _ _ _ h
          split
          · rfl
          · rename_i a1 r1 heq
            simp only [Except.ok.injEq, Prod.mk.injEq] at heq
            obtain ⟨-, hr⟩ := heq
            subst hr
            rw [ihA _ (by simp at l ⊢; omega)]
          · rfl
          · rfl

theorem parseExpression_fuel (prec : Char → Option Nat) (m : Nat) (ts : List Token)
    (extra : Nat) :
    parseExpression prec (2 * ts.length + 2 + extra) m ts
      = parseExpression prec (2 * ts.length + 2) m ts := by
  induction extra with
  | zero => rfl
  | succ k ih =>
    rw [← ih]
    exact (fuel_step prec (2 * ts.length + 2 + k)).2.1 m ts (by omega)

theorem parseExpression_fuel_le (prec : Char → Option Nat) (m : Nat) (ts : List Token)
    (f g : Nat) (hf : 2 * ts.length + 2 ≤ f) (hg : 2 * ts.length + 2 ≤ g) :
    parseExpression prec f m ts = parseExpression prec g m ts := by
  obtain ⟨a, rfl⟩ := Nat.exists_eq_add_of_le hf
  obtain ⟨b, rfl⟩ := Nat.exists_eq_add_of_le hg
  rw [parseExpression_fuel, parseExpression_fuel]

theorem parseParams_consumes (ts : List Token) (names : List (List Char)) (rest : List Token)
    (h : parseParams ts = .ok (names, rest)) : rest.length < ts.length := by
  induction ts generalizing names rest with
  | nil => simp [parseParams] at h
  | cons t tl ih =>
    cases t with
    | rightParen =>
      simp [parseParams] at h
      rw [← h.2]
      simp
    | identifier name =>
      simp only [parseParams] at h
      cases h1 : parseParams tl with
      | error e => simp [h1] at h
      | ok r =>
        obtain ⟨ns, r1⟩ := r
        simp [h1] at h
        have := ih ns r1 h1
        rw [← h.2]
        simp
        omega
    | comma =>
      simp only [parseParams] at h
      have := ih names rest h
      simp
      omega
    | _ => simp [parseParams] at h

theorem parsePrototype_consumes (ts : List Token) (e : AstNode) (rest : List Token)
    (h : parsePrototype ts = .ok (e, rest)) : rest.length < ts.length := by
  unfold parsePrototype at h
  split at h
  · split at h
    · simp at h
    · rename_i heq
      simp at h
      have := parseParams_consumes _ _ _ heq
      rw [← h.2]
      simp
      omega
  · simp at h
  · simp at h

theorem parseTopLevel_fuel (prec : Char → Option Nat) (ts : List Token) (f g : Nat)
    (hf : 2 * ts.length + 2 ≤ f) (hg : 2 * ts.length + 2 ≤ g) :
    parseTopLevel prec f ts = parseTopLevel prec g ts := by
  unfold parseTopLevel
  split
  · rfl
  · split
    · rfl
    · rename_i heq
      have l := parsePrototype_consumes _ _ _ heq
      simp only [List.length_cons] at hf hg
      rw [parseExpression_fuel_le prec 0 _ f g (by omega) (by omega)]
  · exact parseExpression_fuel_le prec 0 ts f g hf hg

theorem parseTopLevel_consumes (prec : Char → Option Nat) (fuel : Nat) (ts : List Token)
    (e : AstNode) (rest : List Token) (h : parseTopLevel prec fuel ts = .ok (e, rest)) :
    rest.length < ts.length := by
  unfold parseTopLevel at h
  split at h
  · have := parsePrototype_consumes _ _ _ h
    simp
    omega
  · split at h
    · simp at h
    · rename_i heq
      have l := parsePrototype_consumes _ _ _ heq
      split at h
      · simp at h
      · rename_i heq2
        simp at h
        have l2 := (consumes prec fuel).2.1 _ _ _ _ heq2
        rw [← h.2]
        simp
        omega
  · exact (consumes prec fuel).2.1 _ _ _ _ h


theorem parseConstructs_fuel (prec : Char → Option Nat) (total : Nat) (c : Nat) :
    ∀ (c' b b' : Nat) (ts : List Token), ts.length ≤ c → ts.length ≤ c' → ts.length ≤ total →
      2 * total + 2 ≤ b → 2 * total + 2 ≤ b' →
      parseConstructs prec total b c ts = parseConstructs prec total b' c' ts := by
  induction c with
  | zero =>
    intro c' b b' ts h1 h2 h3 h4 h5
    have hts : ts = [] := List.length_eq_zero.1 (Nat.le_zero.1 h1)
    subst hts
    cases c' <;> simp [parseConstructs]
  | succ k ih =>
    intro c' b b' ts h1 h2 h3 h4 h5
    cases c' with
    | zero =>
      have hts : ts = [] := List.length_eq_zero.1 (Nat.le_zero.1 h2)
      subst hts
      simp [parseConstructs]
    | succ k' =>
      unfold parseConstructs
      split
      · rfl
      · rfl
      · rw [parseTopLevel_fuel prec ts b b' (by omega) (by omega)]
        cases h : parseTopLevel prec b' ts with
        | error e => rfl
        | ok r =>
          obtain ⟨node, rest⟩ := r
          have l := parseTopLevel_consumes prec b' ts node rest h
          simp only []
          rw [ih k' b b' rest (by omega) (by omega) (by omega) h4 h5]

theorem isDigit_of_digit (c : Char) (h : classify c = .digit) : c.isDigit = true := by
  unfold classify at h
  split_ifs at h with h1 h2
  exact h2

theorem next_token_consumes (text : List Char) (t : Token) (rest : List Char)
    (h : next_token text = (t, rest)) (ht : t ≠ .endOfInput) : rest.length < text.length := by
  induction text with
  | nil =>
    simp [next_token] at h
    exact absurd h.1.symm ht
  | cons c cs ih =>
    unfold next_token at h
    split at h
    · have := ih h
      simp
      omega
    · rename_i hc
      simp only [Prod.mk.injEq] at h
      rw [← h.2, List.dropWhile_cons]
      simp only [isDigit_of_digit c hc, Bool.true_or, if_true]
      have := (List.dropWhile_sublist (l := cs) (fun d => d.isDigit || d == '.')).length_le
      simp
      omega
    · rename_i hc
      simp only [Prod.mk.injEq] at h
      rw [← h.2, List.dropWhile_cons]
      simp only [isAlphanum_of_letter c hc, if_true]
      have := (List.dropWhile_sublist (l := cs) Char.isAlphanum).length_le
      simp
      omega
    all_goals
      simp only [Prod.mk.injEq] at h
      rw [← h.2]
      simp

theorem tokenize_fuel_step (fuel : Nat) :
    ∀ text : List Char, text.length < fuel → tokenize (fuel + 1) text = tokenize fuel text := by
  induction fuel with
  | zero => intro text h; omega
  | succ k ih =>
    intro text h
    cases hn : next_token text with
    | mk t rest =>
      by_cases ht : t = .endOfInput
      · subst ht
        simp [tokenize, hn]
      · have l := next_token_consumes text t rest hn ht
        rw [tokenize_step _ _ _ _ hn ht, tokenize_step _ _ _ _ hn ht, ih rest (by omega)]

theorem tokenize_fuel (text : List Char) (extra : Nat) :
    tokenize (text.length + 1 + extra) text = tokenize (text.length + 1) text := by
  induction extra with
  | zero => rfl
  | succ k ih =>
    rw [← ih]
    exact tokenize_fuel_step (text.length + 1 + k) text (by omega)

/-- The fuels of `parse` are enough: with any larger fuel for the lexer, for
the constructs and for the loop over them, the result is the one `parse`
gives. -/
theorem parse_fuel_adequate (prec : Char → Option Nat) (text : String)
    (lexFuel exprFuel loopFuel : Nat) (h1 : text.length + 1 ≤ lexFuel)
    (h2 : 2 * (tokenize lexFuel text.toList).length + 2 ≤ exprFuel)
    (h3 : (tokenize lexFuel text.toList).length ≤ loopFuel) :
    parseConstructs prec (tokenize lexFuel text.toList).length exprFuel loopFuel
        (tokenize lexFuel text.toList)
      = parse prec text := by
  obtain ⟨k, rfl⟩ := Nat.exists_eq_add_of_le h1
  have e : tokenize (text.length + 1 + k) text.toList
      = tokenize (text.length + 1) text.toList := tokenize_fuel text.toList k
  rw [e] at h2 h3 ⊢
  exact parseConstructs_fuel prec _ loopFuel _ exprFuel _ _ h3 (le_refl _) (le_refl _) h2
    (le_refl _)

theorem tokenize_operands (a b c : List Char) (o1 o2 : Char)
    (ha : isIdentifierName a = true) (hb : isIdentifierName b = true)
    (hc : isIdentifierName c = true) (h1 : classify o1 = .other) (h2 : classify o2 = .other)
    (fuel : Nat) :
    tokenize (fuel + 5) (a ++ ' ' :: o1 :: ' ' :: (b ++ ' ' :: o2 :: ' ' :: c))
      = [.identifier a, .operator o1, .identifier b, .operator o2, .identifier c,
          .endOfInput] := by
  have e1 := next_token_identifier a (' ' :: o1 :: ' ' :: (b ++ ' ' :: o2 :: ' ' :: c)) ha
    rfl
  have e2 : next_token (' ' :: o1 :: ' ' :: (b ++ ' ' :: o2 :: ' ' :: c))
      = (.operator o1, ' ' :: (b ++ ' ' :: o2 :: ' ' :: c)) := by
    rw [next_token_blank, next_token_operator _ _ h1]
  have e3 : next_token (' ' :: (b ++ ' ' :: o2 :: ' ' :: c))
      = (.identifier b, ' ' :: o2 :: ' ' :: c) := by
    rw [next_token_blank, next_token_identifier b (' ' :: o2 :: ' ' :: c) hb rfl]
  have e4 : next_token (' ' :: o2 :: ' ' :: c) = (.operator o2, ' ' :: c) := by
    rw [next_token_blank, next_token_operator _ _ h2]
  have e5 : next_token (' ' :: c) = (.identifier c, []) := by
    have h := next_token_identifier c [] hc rfl
    rw [List.append_nil] at h
    rw [next_token_blank, h]
  rw [tokenize_step _ _ _ _ e1 (by simp), tokenize_step _ _ _ _ e2 (by simp),
    tokenize_step _ _ _ _ e3 (by simp), tokenize_step _ _ _ _ e4 (by simp),
    tokenize_step _ _ _ _ e5 (by simp), tokenize_nil]

theorem parseTopLevel_two_operators (prec : Char → Option Nat) (a b c : List Char)
    (o1 o2 : Char) (p1 p2 : Nat) (hp1 : prec o1 = some p1) (hp2 : prec o2 = some p2) :
    parseTopLevel prec 14 [.identifier a, .operator o1, .identifier b, .operator o2,
        .identifier c, .endOfInput]
      = .ok (if p1 < p2 then
          .binaryExpr o1 (.variableRef a) (.binaryExpr o2 (.variableRef b) (.variableRef c))
        else
          .binaryExpr o2 (.binaryExpr o1 (.variableRef a) (.variableRef b)) (.variableRef c),
        [.endOfInput]) := by
  by_cases h : p1 < p2
  · have h' : p1 + 1 ≤ p2 := h
    simp [parseTopLevel, parseExpression, parsePrimary, parseBinOpRhs, hp1, hp2, h, h']
  · have h' : ¬ p1 + 1 ≤ p2 := h
    simp [parseTopLevel, parseExpression, parsePrimary, parseBinOpRhs, hp1, hp2, h, h']

/-- C9: binary operators have a fixed precedence, and operators of equal
precedence associate to the left.  For every precedence table, all operands
`a`, `b`, `c` that are identifiers, and all operators `o1`, `o2` with a defined
precedence, the line `a o1 b o2 c` parses to one node without failure:
`a o1 (b o2 c)` when `o2` binds tighter than `o1`, and `(a o1 b) o2 c`
otherwise, in particular when the two have the same precedence.  So
`a + b * c` is `a + (b * c)` when `*` is above `+`, and `a - b - c` is
`(a - b) - c`. -/
theorem precedence_and_left_associativity (prec : Char → Option Nat) (a b c : List Char)
    (o1 o2 : Char) (p1 p2 : Nat)
    (ha : isIdentifierName a = true) (hb : isIdentifierName b = true)
    (hc : isIdentifierName c = true) (h1 : classify o1 = .other) (h2 : classify o2 = .other)
    (hp1 : prec o1 = some p1) (hp2 : prec o2 = some p2) :
    parse prec (String.mk (a ++ ' ' :: o1 :: ' ' :: (b ++ ' ' :: o2 :: ' ' :: c)))
      = ⟨[if p1 < p2 then
            .binaryExpr o1 (.variableRef a) (.binaryExpr o2 (.variableRef b) (.variableRef c))
          else
            .binaryExpr o2 (.binaryExpr o1 (.variableRef a) (.variableRef b)) (.variableRef c)],
          none⟩ := by
  have hlen : ∃ k, (String.mk (a ++ ' ' :: o1 :: ' ' :: (b ++ ' ' :: o2 :: ' ' :: c))).length + 1
      = k + 5 := by
    refine ⟨a.length + b.length + c.length + 2, ?_⟩
    simp [String.length]
    omega
  obtain ⟨k, hk⟩ := hlen
  have ht := tokenize_operands a b c o1 o2 ha hb hc h1 h2 k
  simp only [parse, hk, String.toList, ht]
  simp [parseConstructs, parseTopLevel_two_operators prec a b c o1 o2 p1 p2 hp1 hp2]

/-- Witness for C9: with the usual table, `a + b * c` parses to `a + (b * c)`
and `a - b - c` to `(a - b) - c`. -/
theorem precedence_and_left_associativity_witness :
    parse usualPrecedence "a + b * c"
        = ⟨[.binaryExpr '+' (.variableRef ['a'])
            (.binaryExpr '*' (.variableRef ['b']) (.variableRef ['c']))], none⟩
      ∧ parse usualPrecedence "a - b - c"
        = ⟨[.binaryExpr '-' (.binaryExpr '-' (.variableRef ['a']) (.variableRef ['b']))
            (.variableRef ['c'])], none⟩ :=
  ⟨precedence_and_left_associativity usualPrecedence ['a'] ['b'] ['c'] '+' '*' 20 40
      (by decide) (by decide) (by decide) (by decide) (by decide) (by decide) (by decide),
    precedence_and_left_associativity usualPrecedence ['a'] ['b'] ['c'] '-' '-' 20 20
      (by decide) (by decide) (by decide) (by decide) (by decide) (by decide) (by decide)⟩

end parser

end Kaleidoscope
